import Mathlib

/-!
Shallow embedding of the townspot/raycast-townspot extension's core library
(`src/lib/townspot.ts`, `src/lib/event-tags.ts`, `src/lib/event-listing.ts`,
`src/lib/location-context.ts`) together with proofs about it.

Modelling conventions:
* JavaScript strings are Lean `String`s; the handful of host string
  operations the code uses (`trim`, `toLowerCase`, `split`, regex replaces)
  are spelled out over `String.data` character lists, restricted to the
  ASCII behaviour the slugs and tags exercise.
* Millisecond timestamps are `Int` (JS numbers holding epoch milliseconds).
* Host-runtime functions with no algorithmic content in the repository
  (`Date.parse`, `Intl.DateTimeFormat` date keys / weekday labels / day
  labels, `Date.now`, the haversine floating-point distance) enter as
  explicit oracle parameters, so every theorem quantifies over them.
* `fetch`-based calls are modelled by a `FetchOutcome` value per call site
  (success payload, non-2xx, network error, timeout, malformed body), and
  JavaScript exceptions by `Except String`.
-/

namespace Townspot

/-! ## JavaScript string primitives (character-list level) -/

/-- Whitespace recognised by JS `trim` and the regex class from the code
(ASCII core: space, tab, LF, CR, VT, FF). -/
def jsIsSpace (c : Char) : Bool :=
  c = ' ' || c = '\t' || c = '\n' || c = '\r' || c = '\x0b' || c = '\x0c'

/-- JS `String.prototype.trim` on a character list. -/
def trimChars (l : List Char) : List Char :=
  ((l.dropWhile jsIsSpace).reverse.dropWhile jsIsSpace).reverse

/-- JS `String.prototype.trim`. -/
def jsTrim (s : String) : String :=
  String.mk (trimChars s.data)

/-- JS `String.prototype.toLowerCase` (ASCII, character-wise). -/
def jsToLower (s : String) : String :=
  String.mk (s.data.map Char.toLower)

/-! ## `src/lib/townspot.ts` -/

/-- Characters kept by the regex class `[a-z0-9-]`. -/
def isSlugChar (c : Char) : Bool :=
  ('a' ≤ c && c ≤ 'z') || ('0' ≤ c && c ≤ '9') || c = '-'

/-- Replace `/\s+/g` by `"-"`: each maximal whitespace run becomes one
hyphen.  `inRun` records whether the previous character was whitespace. -/
def collapseSpacesAux : Bool → List Char → List Char
  | _, [] => []
  | inRun, c :: rest =>
    if jsIsSpace c then
      if inRun then collapseSpacesAux true rest
      else '-' :: collapseSpacesAux true rest
    else c :: collapseSpacesAux false rest

/-- Replace every maximal hyphen run by one hyphen (the third global
regex replace). -/
def collapseHyphensAux : Bool → List Char → List Char
  | _, [] => []
  | inRun, c :: rest =>
    if c = '-' then
      if inRun then collapseHyphensAux true rest
      else '-' :: collapseHyphensAux true rest
    else c :: collapseHyphensAux false rest

/-- Character-list body of `sanitizeTownSlug`: lowercase, trim,
whitespace runs to `-`, strip characters outside `[a-z0-9-]`, collapse
hyphen runs. -/
def sanitizeTownSlugChars (l : List Char) : List Char :=
  collapseHyphensAux false
    ((collapseSpacesAux false (trimChars (l.map Char.toLower))).filter isSlugChar)

/-- `sanitizeTownSlug` from `src/lib/townspot.ts`. -/
def sanitizeTownSlug (townSlug : String) : String :=
  String.mk (sanitizeTownSlugChars townSlug.data)

/-- Scheme-body characters of the regex `[a-z0-9+.-]` (case-insensitive). -/
def isSchemeBodyChar (c : Char) : Bool :=
  ('a' ≤ c && c ≤ 'z') || ('A' ≤ c && c ≤ 'Z') || ('0' ≤ c && c ≤ '9') ||
    c = '+' || c = '.' || c = '-'

/-- After the leading letter, scan `[a-z0-9+.-]*` and then require `://`
(the body class contains no `:` so the regex match is deterministic). -/
def hasSchemeTail : List Char → Bool
  | ':' :: '/' :: '/' :: _ => true
  | c :: rest => if isSchemeBodyChar c then hasSchemeTail rest else false
  | [] => false

/-- The test `/^[a-z][a-z0-9+.-]*:\/\//i.test(value)`. -/
def hasScheme (value : String) : Bool :=
  match value.data with
  | c :: rest => (('a' ≤ c && c ≤ 'z') || ('A' ≤ c && c ≤ 'Z')) && hasSchemeTail rest
  | [] => false

/-- `normalizeApiBaseUrl` from `src/lib/townspot.ts`; the `throw` on an
empty trimmed value is modelled as `Except.error`. -/
def normalizeApiBaseUrl (apiBaseUrl : String) : Except String String :=
  let value := jsTrim apiBaseUrl
  if value = "" then .error "TownSpot API Base URL is required."
  else if hasScheme value then .ok value
  else .ok ("http://" ++ value)

/-- JS `slug.split("-")` on a character list: `cur` is the reversed
current piece. -/
def splitOnHyphenAux (cur : List Char) : List Char → List (List Char)
  | [] => [cur.reverse]
  | c :: rest =>
    if c = '-' then cur.reverse :: splitOnHyphenAux [] rest
    else splitOnHyphenAux (c :: cur) rest

/-- JS `part.charAt(0).toUpperCase() + part.slice(1)` (ASCII). -/
def capitalizeFirstChars : List Char → List Char
  | [] => []
  | c :: rest => c.toUpper :: rest

/-- JS `parts.join(" ")`. -/
def joinWithSpace : List (List Char) → List Char
  | [] => []
  | [x] => x
  | x :: rest => x ++ ' ' :: joinWithSpace rest

/-- `toTownName` from `src/lib/location-context.ts`: split the slug on
hyphens, drop empty parts, capitalize each part, join with spaces. -/
def toTownName (slug : String) : String :=
  String.mk
    (joinWithSpace
      (((splitOnHyphenAux [] slug.data).filter (· ≠ [])).map capitalizeFirstChars))

/-! ## `src/lib/event-tags.ts` -/

/-- `normalizeTag`: trim then lowercase. -/
def normalizeTag (value : String) : String :=
  jsToLower (jsTrim value)

/-- The `FREQUENCY_TAGS` lookup table. -/
def FREQUENCY_TAGS : List (String × String) :=
  [("one-off", "One-Off"), ("one off", "One-Off"), ("weekly", "Weekly"),
   ("daily", "Daily"), ("monthly", "Monthly"), ("fortnightly", "Fortnightly"),
   ("biweekly", "Biweekly"), ("weekdays", "Weekdays"), ("weekends", "Weekends")]

/-- The `FREE_TAGS` set. -/
def FREE_TAGS : List String := ["free", "gratis", "no cost"]

/-- The `PAID_TAGS` set. -/
def PAID_TAGS : List String := ["paid", "ticketed"]

/-- `dedupeOrdered`: drop empty trims and case-insensitive duplicates,
keeping first-seen original casing and order; `seen` is the set of
normalized values already emitted. -/
def dedupeOrderedAux (seen : List String) : List String → List String
  | [] => []
  | v :: rest =>
    let raw := jsTrim v
    let normalized := normalizeTag raw
    if raw = "" ∨ normalized ∈ seen then dedupeOrderedAux seen rest
    else raw :: dedupeOrderedAux (normalized :: seen) rest

/-- `dedupeOrdered` from `src/lib/event-tags.ts`. -/
def dedupeOrdered (values : List String) : List String :=
  dedupeOrderedAux [] values

/-- `EventTagParts` record. -/
structure EventTagParts where
  categories : List String
  frequency : Option String
  price : Option String
deriving DecidableEq, Repr

/-- Loop body of `splitEventTags`; `frequency`/`price` are the slots filled
so far and `categories` the tags pushed so far (in order). -/
def splitEventTagsAux (frequency price : Option String) (categories : List String) :
    List String → EventTagParts
  | [] => ⟨dedupeOrdered categories, frequency, price⟩
  | tag :: rest =>
    let raw := jsTrim tag
    if raw = "" then splitEventTagsAux frequency price categories rest
    else
      let normalized := normalizeTag raw
      match frequency, FREQUENCY_TAGS.lookup normalized with
      | none, some label => splitEventTagsAux (some label) price categories rest
      | _, _ =>
        if price = none ∧ normalized ∈ FREE_TAGS then
          splitEventTagsAux frequency (some "Free") categories rest
        else if price = none ∧ normalized ∈ PAID_TAGS then
          splitEventTagsAux frequency (some "Paid") categories rest
        else splitEventTagsAux frequency price (categories ++ [raw]) rest

/-- `splitEventTags` from `src/lib/event-tags.ts`. -/
def splitEventTags (tags : List String) : EventTagParts :=
  splitEventTagsAux none none [] tags

example : sanitizeTownSlug "Kentish Town!!" = "kentish-town" := by decide
example : sanitizeTownSlug "  " = "" := by decide
example : splitEventTags ["Free", "Weekly", "Music", "Free"] =
    ⟨["Music", "Free"], some "Weekly", some "Free"⟩ := by decide

/-! ## `src/types.ts` and `src/lib/event-listing.ts`

`Date.parse` is the oracle `parse : String → Option Int` (`none` models
`NaN`); `formatDateKey` for a fixed timezone is the oracle
`fdk : Int → String` on epoch milliseconds; the short weekday label of
`weekdayInTimezone` is the oracle `wds : Int → String`; `dayLabel` is the
oracle `dlb : Int → String`.  Quantifying over these oracles quantifies
over the timezone.  `Date.now()` is the parameter `nowMs`. -/

/-- `RaycastEvent` from `src/types.ts` (`endTime : string | null`). -/
structure RaycastEvent where
  id : String
  title : String
  startTime : String
  endTime : Option String
  venueName : String
  startLabel : String
  tags : List String
  url : String
deriving DecidableEq, Repr

/-- The `TimeWindow` union type. -/
inductive TimeWindow where
  | now
  | all_upcoming
  | today
  | today_tomorrow
  | next_3_days
  | next_7_days
  | this_week
deriving DecidableEq, Repr

/-- `DEFAULT_EVENT_DURATION_MS = 2 * 60 * 60 * 1000`. -/
def DEFAULT_EVENT_DURATION_MS : Int := 2 * 60 * 60 * 1000

/-- `EventDaySection` record. -/
structure EventDaySection where
  id : String
  title : String
  events : List RaycastEvent
deriving DecidableEq, Repr

/-- The sort comparator of `sortEvents`, as the total preorder "a does not
come after b": both `NaN` compare equal, a `NaN` start sorts last, and
otherwise the parsed times are compared. -/
def eventLe (parse : String → Option Int) (a b : RaycastEvent) : Bool :=
  match parse a.startTime, parse b.startTime with
  | none, none => true
  | none, some _ => false
  | some _, none => true
  | some x, some y => x ≤ y

/-- `sortEvents`: JS `Array.prototype.sort` is a stable sort by the
comparator; a stable sort by the total preorder `eventLe` is unique, and
is realised here by insertion sort. -/
def sortEvents (parse : String → Option Int) (events : List RaycastEvent) :
    List RaycastEvent :=
  List.insertionSort (fun a b => eventLe parse a b = true) events

/-- `getEventWindowMs`: `none` when `startTime` does not parse; the end
falls back to `start + 2h` when `endTime` does not parse or is not
strictly after the start. -/
def getEventWindowMs (parse : String → Option Int) (event : RaycastEvent) :
    Option (Int × Int) :=
  match parse event.startTime with
  | none => none
  | some startMs =>
    let endMs :=
      match parse (event.endTime.getD "") with
      | none => startMs + DEFAULT_EVENT_DURATION_MS
      | some parsedEndMs =>
        if parsedEndMs ≤ startMs then startMs + DEFAULT_EVENT_DURATION_MS
        else parsedEndMs
    some (startMs, endMs)

/-- `keepUpcomingEvents`: keep events whose computed end is strictly after
now. -/
def keepUpcomingEvents (parse : String → Option Int) (nowMs : Int)
    (events : List RaycastEvent) : List RaycastEvent :=
  events.filter fun event =>
    match getEventWindowMs parse event with
    | none => false
    | some w => nowMs < w.2

/-- `isEventLiveNow`. -/
def isEventLiveNow (parse : String → Option Int) (event : RaycastEvent)
    (nowMs : Int) : Bool :=
  match getEventWindowMs parse event with
  | none => false
  | some w => w.1 ≤ nowMs && nowMs < w.2

/-- `dateKeyForOffset`: `setUTCDate(getUTCDate() + offsetDays)` shifts the
timestamp by exactly `offsetDays` UTC days, i.e. `offsetDays * 86400000`
milliseconds. -/
def dateKeyForOffset (fdk : Int → String) (baseMs : Int) (offsetDays : Nat) : String :=
  fdk (baseMs + offsetDays * 86400000)

/-- `weekdayInTimezone`: the `weekdays` record lookup with fallback `1`. -/
def weekdayInTimezone (wds : Int → String) (t : Int) : Nat :=
  match wds t with
  | "Mon" => 1
  | "Tue" => 2
  | "Wed" => 3
  | "Thu" => 4
  | "Fri" => 5
  | "Sat" => 6
  | "Sun" => 7
  | _ => 1

/-- JS `Set.add` on the insertion-ordered model of `Set<string>`. -/
def setAdd (s : List String) (k : String) : List String :=
  if k ∈ s then s else s ++ [k]

/-- The `allowedDateKeys` set built by the date-bucketed branches of
`filterEventsByTimeWindow` (`now` and `all_upcoming` never reach this
code and get `[]`). -/
def allowedDateKeysFor (fdk : Int → String) (wds : Int → String) (nowMs : Int) :
    TimeWindow → List String
  | .today => setAdd [] (fdk nowMs)
  | .today_tomorrow => setAdd (setAdd [] (fdk nowMs)) (dateKeyForOffset fdk nowMs 1)
  | .next_3_days =>
    (List.range 3).foldl (fun s o => setAdd s (dateKeyForOffset fdk nowMs o)) []
  | .next_7_days =>
    (List.range 7).foldl (fun s o => setAdd s (dateKeyForOffset fdk nowMs o)) []
  | .this_week =>
    let weekday := weekdayInTimezone wds nowMs
    let daysUntilSunday := 7 - weekday
    (List.range (daysUntilSunday + 1)).foldl
      (fun s o => setAdd s (dateKeyForOffset fdk nowMs o)) []
  | _ => []

/-- `filterEventsByTimeWindow` from `src/lib/event-listing.ts`. -/
def filterEventsByTimeWindow (parse : String → Option Int) (fdk : Int → String)
    (wds : Int → String) (nowMs : Int) (events : List RaycastEvent)
    (timeWindow : TimeWindow) : List RaycastEvent :=
  match timeWindow with
  | .now => events.filter fun event => isEventLiveNow parse event nowMs
  | .all_upcoming => keepUpcomingEvents parse nowMs events
  | w =>
    let allowedDateKeys := allowedDateKeysFor fdk wds nowMs w
    (keepUpcomingEvents parse nowMs events).filter fun event =>
      match parse event.startTime with
      | none => false
      | some t => fdk t ∈ allowedDateKeys

/-- Insertion into the insertion-ordered model of the `grouped` map:
append the event to the section keyed `key` when present (the passed
title is ignored then, as in the source, where the title is only computed
on first insertion), else append a fresh section at the end. -/
def insertIntoSections (sections : List EventDaySection) (key title : String)
    (event : RaycastEvent) : List EventDaySection :=
  match sections with
  | [] => [⟨key, title, [event]⟩]
  | s :: rest =>
    if s.id = key then ⟨s.id, s.title, s.events ++ [event]⟩ :: rest
    else s :: insertIntoSections rest key title event

/-- The loop of `groupEventsByDay` over the sorted events. -/
def groupEventsFold (parse : String → Option Int) (fdk : Int → String)
    (dlb : Int → String) (todayKey tomorrowKey : String)
    (sections : List EventDaySection) (events : List RaycastEvent) :
    List EventDaySection :=
  events.foldl
    (fun acc event =>
      match parse event.startTime with
      | none => acc
      | some t =>
        let key := fdk t
        let title :=
          if key = todayKey then "Today"
          else if key = tomorrowKey then "Tomorrow"
          else dlb t
        insertIntoSections acc key title event)
    sections

/-- `groupEventsByDay` from `src/lib/event-listing.ts` (`tomorrow` is
`now` advanced by one UTC day). -/
def groupEventsByDay (parse : String → Option Int) (fdk : Int → String)
    (dlb : Int → String) (nowMs : Int) (events : List RaycastEvent) :
    List EventDaySection :=
  let todayKey := fdk nowMs
  let tomorrowKey := fdk (nowMs + 86400000)
  groupEventsFold parse fdk dlb todayKey tomorrowKey [] (sortEvents parse events)

/-- Well-formedness of one day section: non-empty, and every member's
parsed start is keyed (by the date-key oracle) to the section id. -/
def SectionOk (parse : String → Option Int) (fdk : Int → String)
    (s : EventDaySection) : Prop :=
  s.events ≠ [] ∧ ∀ e ∈ s.events, ∃ t, parse e.startTime = some t ∧ fdk t = s.id

/-! ## `src/lib/location-context.ts`

Each `fetch` call site is given a `FetchOutcome` describing what the
network did there; `try`/`catch` around a call maps every non-success
outcome to `null`, exactly as in the source.  The haversine distance is
floating-point trigonometry with no repository-level content, so it
enters as an oracle `dist` over rational coordinates; no claim depends on
its values. -/

/-- Outcome of one `fetch` call: a parsed 2xx payload, a non-2xx response
(`response.ok` false), a rejected fetch, an abort by the timeout
controller, or a body that fails to parse as the expected shape
(`json()` throwing, or a non-array zone list). -/
inductive FetchOutcome (α : Type) where
  | success (payload : α)
  | httpError
  | networkError
  | timeout
  | malformed
deriving DecidableEq

/-- A JS value in a numeric field, after `Number` coercion by the host:
`num` for a finite number, `nonFinite` for `NaN`/infinities (strings and
other values are represented by their coercion result, which is host
behaviour). -/
inductive JsNum where
  | num (q : Rat)
  | nonFinite
deriving DecidableEq

/-- `toNumber`: a finite (coerced) number, else `null`. -/
def toNumber : Option JsNum → Option Rat
  | some (.num q) => some q
  | some .nonFinite => none
  | none => none

/-- Payload shape of the IP geolocation response. -/
structure IpApiResponse where
  latitude : Option JsNum
  longitude : Option JsNum
  lat : Option JsNum
  lon : Option JsNum
  country_code : Option String
deriving DecidableEq

/-- The `IpLocation` record. -/
structure IpLocation where
  lat : Rat
  lng : Rat
  countryCode : Option String
deriving DecidableEq

/-- `fetchIpLocation`: every failure path yields `none`; on success the
coordinates are read with the `??` fallbacks and the country code is
trimmed and lowercased, empty becoming `undefined`. -/
def fetchIpLocation (outcome : FetchOutcome IpApiResponse) : Option IpLocation :=
  match outcome with
  | .success payload =>
    let lat := toNumber (payload.latitude <|> payload.lat)
    let lng := toNumber (payload.longitude <|> payload.lon)
    let countryCode := jsToLower (jsTrim (payload.country_code.getD ""))
    match lat, lng with
    | some la, some ln =>
      some ⟨la, ln, if countryCode = "" then none else some countryCode⟩
    | _, _ => none
  | _ => none

/-- Payload shape of `GET .../places/match-zone`. -/
structure ZoneMatchZone where
  slug : Option String
  name : Option String
deriving DecidableEq

/-- `ZoneMatchResponse`. -/
structure ZoneMatchResponse where
  zone : Option ZoneMatchZone
deriving DecidableEq

/-- A named zone, the result shape of the two zone lookups. -/
structure NamedZone where
  slug : String
  name : String
deriving DecidableEq

/-- JS `a || b || ""` over two optional strings (empty strings are
falsy). -/
def firstTruthy (a b : Option String) : String :=
  let av := a.getD ""
  if av ≠ "" then av else b.getD ""

/-- `fetchZoneFromCoordinates`: the whole body, including the
`normalizeApiBaseUrl` call, sits inside `try`/`catch`, so a thrown
configuration error is caught and becomes `null` too. -/
def fetchZoneFromCoordinates (apiBaseUrl : String)
    (outcome : FetchOutcome ZoneMatchResponse) : Option NamedZone :=
  match normalizeApiBaseUrl apiBaseUrl with
  | .error _ => none
  | .ok _ =>
    match outcome with
    | .success payload =>
      let slug := sanitizeTownSlug ((payload.zone.bind (·.slug)).getD "")
      if slug = "" then none
      else
        let rawName := jsTrim ((payload.zone.bind (·.name)).getD "")
        some ⟨slug, if rawName = "" then toTownName slug else rawName⟩
    | _ => none

/-- Raw record of the zone list endpoints. -/
structure ZoneListRecord where
  slug : Option String
  name : Option String
  lat : Option JsNum
  lng : Option JsNum
  country_code : Option String
  countryCode : Option String
  active : Option Bool
  hidden : Option Bool
deriving DecidableEq

/-- The candidate predicate inside `findNearestZone`. -/
def isNearestZoneCandidate (preferredCountry : Option String)
    (zone : ZoneListRecord) : Bool :=
  if zone.hidden = some true || zone.active = some false then false
  else
    let zoneSlug := sanitizeTownSlug (zone.slug.getD "")
    let zoneName := jsTrim (zone.name.getD "")
    let zoneLat := toNumber zone.lat
    let zoneLng := toNumber zone.lng
    if zoneSlug = "" || zoneName = "" || zoneLat = none || zoneLng = none then false
    else
      match preferredCountry with
      | none => true
      | some preferred =>
        let zoneCountry := jsToLower (jsTrim (firstTruthy zone.country_code zone.countryCode))
        zoneCountry = "" || zoneCountry = preferred

/-- `findNearestZone`: filter candidates, then scan for the strictly
smallest distance (first minimum wins); `dist` is the haversine oracle. -/
def findNearestZone (dist : Rat → Rat → Rat → Rat → Rat)
    (zones : List ZoneListRecord) (ipLocation : IpLocation) : Option NamedZone :=
  let candidates := zones.filter (isNearestZoneCandidate ipLocation.countryCode)
  let best := candidates.foldl
    (fun best zone =>
      match toNumber zone.lat, toNumber zone.lng with
      | some zoneLat, some zoneLng =>
        let distanceKm := dist ipLocation.lat ipLocation.lng zoneLat zoneLng
        match best with
        | none =>
          some (sanitizeTownSlug (zone.slug.getD ""), jsTrim (zone.name.getD ""), distanceKm)
        | some (bslug, bname, bdist) =>
          if distanceKm < bdist then
            some (sanitizeTownSlug (zone.slug.getD ""), jsTrim (zone.name.getD ""), distanceKm)
          else some (bslug, bname, bdist)
      | _, _ => best)
    none
  match best with
  | none => none
  | some (slug, name, _) =>
    if slug = "" ∨ name = "" then none else some ⟨slug, name⟩

/-- `fetchJsonWithFallback`: first 2xx array payload wins; every other
outcome moves on to the next URL. -/
def fetchJsonWithFallback (outcomes : List (FetchOutcome (List ZoneListRecord))) :
    Option (List ZoneListRecord) :=
  match outcomes with
  | [] => none
  | .success payload :: _ => some payload
  | _ :: rest => fetchJsonWithFallback rest

/-- `fetchNearestZoneByDistance`: here `normalizeApiBaseUrl` is called
outside any `try`/`catch`, so its throw propagates (`Except.error`). -/
def fetchNearestZoneByDistance (dist : Rat → Rat → Rat → Rat → Rat)
    (apiBaseUrl : String) (ipLocation : IpLocation)
    (listOutcome1 listOutcome2 listOutcome3 : FetchOutcome (List ZoneListRecord)) :
    Except String (Option NamedZone) :=
  match normalizeApiBaseUrl apiBaseUrl with
  | .error e => .error e
  | .ok _ =>
    match fetchJsonWithFallback [listOutcome1, listOutcome2, listOutcome3] with
    | none => .ok none
    | some payload => .ok (findNearestZone dist payload ipLocation)

/-- `FALLBACK_TOWN_SLUG`. -/
def FALLBACK_TOWN_SLUG : String := "kentish-town"

/-- The `source` union of `TownContext`. -/
inductive TownSource where
  | argument
  | preference
  | detected
  | fallback
deriving DecidableEq, Repr

/-- `TownContext`. -/
structure TownContext where
  slug : String
  name : String
  source : TownSource
deriving DecidableEq, Repr

/-- `ResolveTownContextInput` (optional fields as `Option`). -/
structure ResolveTownContextInput where
  argumentTownSlug : Option String
  defaultTownSlug : Option String
  apiBaseUrl : String

/-- One outcome per external call a run of `resolveTownContext` can
make: the IP geolocation fetch, the reverse-geocode fetch, and the three
zone-list URLs tried by `fetchNearestZoneByDistance`. -/
structure ResolutionOutcomes where
  ipOutcome : FetchOutcome IpApiResponse
  zoneMatchOutcome : FetchOutcome ZoneMatchResponse
  zoneListOutcome1 : FetchOutcome (List ZoneListRecord)
  zoneListOutcome2 : FetchOutcome (List ZoneListRecord)
  zoneListOutcome3 : FetchOutcome (List ZoneListRecord)

/-- `resolveTownContext` from `src/lib/location-context.ts`; the
`Except.error` case is the uncaught throw escaping from
`fetchNearestZoneByDistance`. -/
def resolveTownContext (dist : Rat → Rat → Rat → Rat → Rat)
    (input : ResolveTownContextInput) (oc : ResolutionOutcomes) :
    Except String TownContext :=
  let fromArgument := sanitizeTownSlug (input.argumentTownSlug.getD "")
  if fromArgument ≠ "" then
    .ok ⟨fromArgument, toTownName fromArgument, .argument⟩
  else
    let fromPreference := sanitizeTownSlug (input.defaultTownSlug.getD "")
    if fromPreference ≠ "" then
      .ok ⟨fromPreference, toTownName fromPreference, .preference⟩
    else
      match fetchIpLocation oc.ipOutcome with
      | some ipLocation =>
        match fetchZoneFromCoordinates input.apiBaseUrl oc.zoneMatchOutcome with
        | some matchedZone => .ok ⟨matchedZone.slug, matchedZone.name, .detected⟩
        | none =>
          match fetchNearestZoneByDistance dist input.apiBaseUrl ipLocation
              oc.zoneListOutcome1 oc.zoneListOutcome2 oc.zoneListOutcome3 with
          | .error e => .error e
          | .ok (some nearestZone) =>
            .ok ⟨nearestZone.slug, nearestZone.name, .detected⟩
          | .ok none =>
            .ok ⟨FALLBACK_TOWN_SLUG, toTownName FALLBACK_TOWN_SLUG, .fallback⟩
      | none => .ok ⟨FALLBACK_TOWN_SLUG, toTownName FALLBACK_TOWN_SLUG, .fallback⟩

/-! ## Theorems -/

/-- C2: for every event and instant, `isEventLiveNow` holds exactly when
the parsed start is at most the instant and the instant is strictly
before the end, where the end is the parsed `endTime` when it parses and
is strictly after the start, and `start + 7200000` ms otherwise. -/
theorem isEventLiveNow_iff_window (parse : String → Option Int)
    (e : RaycastEvent) (t : Int) :
    isEventLiveNow parse e t = true ↔
      ∃ startMs, parse e.startTime = some startMs ∧ startMs ≤ t ∧
        t < (match parse (e.endTime.getD "") with
             | some endMs => if startMs < endMs then endMs else startMs + 7200000
             | none => startMs + 7200000) := by
  unfold isEventLiveNow getEventWindowMs
  cases hs : parse e.startTime with
  | none => simp
  | some s =>
    cases he : parse (e.endTime.getD "") with
    | none =>
      simp only [Option.some.injEq, exists_eq_left', Bool.and_eq_true,
        decide_eq_true_eq, DEFAULT_EVENT_DURATION_MS]
      norm_num
    | some p =>
      simp only [Option.some.injEq, exists_eq_left', Bool.and_eq_true,
        decide_eq_true_eq, DEFAULT_EVENT_DURATION_MS]
      norm_num
      intro h1
      constructor
      · intro h2
        split at h2 <;> split <;> omega
      · intro h2
        split at h2 <;> split <;> omega

/-- C4 counterexample: on `["Free", "Weekly", "Music", "Free"]` the claimed
result with `categories = ["Music"]` is not what `splitEventTags` returns. -/
theorem splitEventTags_duplicate_free_claim_false :
    splitEventTags ["Free", "Weekly", "Music", "Free"] ≠
      ⟨["Music"], some "Weekly", some "Free"⟩ := by decide

/-- C4 (amended): the second `"Free"` is not consumed by the already
filled price slot and falls through to the categories, so the result is
`{categories: ["Music", "Free"], frequency: "Weekly", price: "Free"}`. -/
theorem splitEventTags_duplicate_free :
    splitEventTags ["Free", "Weekly", "Music", "Free"] =
      ⟨["Music", "Free"], some "Weekly", some "Free"⟩ := by decide

/-- C6: the `all_upcoming` window keeps exactly the input events whose
computed end (with the 2-hour default rule) is strictly after now. -/
theorem filterEventsByTimeWindow_all_upcoming_mem (parse : String → Option Int)
    (fdk wds : Int → String) (nowMs : Int) (events : List RaycastEvent)
    (e : RaycastEvent) :
    e ∈ filterEventsByTimeWindow parse fdk wds nowMs events .all_upcoming ↔
      e ∈ events ∧ ∃ startMs endMs,
        getEventWindowMs parse e = some (startMs, endMs) ∧ nowMs < endMs := by
  show e ∈ keepUpcomingEvents parse nowMs events ↔ _
  unfold keepUpcomingEvents
  rw [List.mem_filter]
  cases h : getEventWindowMs parse e with
  | none => simp [h]
  | some w =>
    obtain ⟨ws, we⟩ := w
    simp [h, decide_eq_true_eq, and_assoc]

/-- C7: a non-empty sanitized argument slug short-circuits all later
resolution steps: for every preference, base URL, and network outcome the
result is the sanitized argument with its title-cased name and source
`argument`. -/
theorem resolveTownContext_argument_short_circuit
    (dist : Rat → Rat → Rat → Rat → Rat) (input : ResolveTownContextInput)
    (oc : ResolutionOutcomes)
    (h : sanitizeTownSlug (input.argumentTownSlug.getD "") ≠ "") :
    resolveTownContext dist input oc =
      .ok ⟨sanitizeTownSlug (input.argumentTownSlug.getD ""),
           toTownName (sanitizeTownSlug (input.argumentTownSlug.getD "")),
           .argument⟩ := by
  unfold resolveTownContext
  simp [h]

/-- A non-empty trimmed base URL never makes `normalizeApiBaseUrl` throw. -/
theorem normalizeApiBaseUrl_ok {apiBaseUrl : String}
    (h : jsTrim apiBaseUrl ≠ "") :
    ∃ u, normalizeApiBaseUrl apiBaseUrl = .ok u := by
  unfold normalizeApiBaseUrl
  rw [if_neg h]
  split <;> exact ⟨_, rfl⟩

/-- With a non-empty trimmed base URL, `fetchNearestZoneByDistance` never
propagates a throw. -/
theorem fetchNearestZoneByDistance_ok (dist : Rat → Rat → Rat → Rat → Rat)
    {apiBaseUrl : String} (ipLocation : IpLocation)
    (o1 o2 o3 : FetchOutcome (List ZoneListRecord))
    (h : jsTrim apiBaseUrl ≠ "") :
    ∃ r, fetchNearestZoneByDistance dist apiBaseUrl ipLocation o1 o2 o3 = .ok r := by
  unfold fetchNearestZoneByDistance
  obtain ⟨u, hu⟩ := normalizeApiBaseUrl_ok h
  rw [hu]
  cases h2 : fetchJsonWithFallback [o1, o2, o3] with
  | none => exact ⟨none, rfl⟩
  | some payload => exact ⟨findNearestZone dist payload ipLocation, rfl⟩

/-- C1 counterexample: with an empty base URL, no argument or preference,
a successful IP geolocation and a failing reverse geocode, the uncaught
`normalizeApiBaseUrl` throw inside `fetchNearestZoneByDistance` escapes
`resolveTownContext` as an exception instead of a `TownContext` value. -/
theorem resolveTownContext_empty_base_url_throws :
    resolveTownContext (fun _ _ _ _ => 0) ⟨none, none, ""⟩
        ⟨.success ⟨some (.num 0), some (.num 0), none, none, none⟩,
         .networkError, .networkError, .networkError, .networkError⟩ =
      .error "TownSpot API Base URL is required." := rfl

/-- C1 (amended): for every input whose `apiBaseUrl` trims to a non-empty
string and every outcome of the external calls, `resolveTownContext`
terminates with a `TownContext` value and never raises; and when the
argument and preference sanitize to empty and every external step fails
to resolve, the result is the `kentish-town` fallback. -/
theorem resolveTownContext_total_and_fallback (dist : Rat → Rat → Rat → Rat → Rat)
    (input : ResolveTownContextInput) (oc : ResolutionOutcomes)
    (hbase : jsTrim input.apiBaseUrl ≠ "") :
    (∃ ctx, resolveTownContext dist input oc = .ok ctx) ∧
    (sanitizeTownSlug (input.argumentTownSlug.getD "") = "" →
     sanitizeTownSlug (input.defaultTownSlug.getD "") = "" →
     (∀ ip, fetchIpLocation oc.ipOutcome = some ip →
        fetchZoneFromCoordinates input.apiBaseUrl oc.zoneMatchOutcome = none ∧
        fetchNearestZoneByDistance dist input.apiBaseUrl ip
          oc.zoneListOutcome1 oc.zoneListOutcome2 oc.zoneListOutcome3 = .ok none) →
     resolveTownContext dist input oc =
       .ok ⟨"kentish-town", "Kentish Town", .fallback⟩) := by
  constructor
  · unfold resolveTownContext
    by_cases ha : sanitizeTownSlug (input.argumentTownSlug.getD "") = ""
    · by_cases hp : sanitizeTownSlug (input.defaultTownSlug.getD "") = ""
      · simp only [ha, hp, ne_eq, not_true_eq_false, if_false]
        cases hip : fetchIpLocation oc.ipOutcome with
        | none => exact ⟨_, rfl⟩
        | some ip =>
          dsimp only
          cases hz : fetchZoneFromCoordinates input.apiBaseUrl oc.zoneMatchOutcome with
          | some mz => exact ⟨_, rfl⟩
          | none =>
            dsimp only
            obtain ⟨r, hr⟩ := fetchNearestZoneByDistance_ok dist ip
              oc.zoneListOutcome1 oc.zoneListOutcome2 oc.zoneListOutcome3 hbase
            rw [hr]
            cases r <;> exact ⟨_, rfl⟩
      · simp only [ha, hp, ne_eq, not_true_eq_false, if_false, if_neg, not_false_eq_true,
          if_true]
        exact ⟨_, rfl⟩
    · simp only [ha, ne_eq, not_false_eq_true, if_true]
      exact ⟨_, rfl⟩
  · intro ha hp hfail
    unfold resolveTownContext
    simp only [ha, hp, ne_eq, not_true_eq_false, if_false]
    cases hip : fetchIpLocation oc.ipOutcome with
    | none => rfl
    | some ip =>
      dsimp only
      obtain ⟨hz, hn⟩ := hfail ip hip
      rw [hz]
      dsimp only
      rw [hn]
      rfl

/-- Witness for C1's amended theorem at a concrete non-empty base URL
with all network calls failing. -/
theorem resolveTownContext_total_and_fallback_witness :
    jsTrim "example.com" ≠ "" ∧
      resolveTownContext (fun _ _ _ _ => 0) ⟨none, none, "example.com"⟩
          ⟨.networkError, .networkError, .networkError, .networkError, .networkError⟩ =
        .ok ⟨"kentish-town", "Kentish Town", .fallback⟩ := by
  refine ⟨by decide, ?_⟩
  have h := resolveTownContext_total_and_fallback (fun _ _ _ _ => 0)
    ⟨none, none, "example.com"⟩
    ⟨.networkError, .networkError, .networkError, .networkError, .networkError⟩
    (by decide)
  exact h.2 (by decide) (by decide)
    (fun ip hip => by simp [fetchIpLocation] at hip)

/-- Membership in the JS-set model: `setAdd` adds exactly one key. -/
theorem mem_setAdd {s : List String} {k k' : String} :
    k ∈ setAdd s k' ↔ k ∈ s ∨ k = k' := by
  unfold setAdd
  split
  · rename_i h
    constructor
    · exact .inl
    · rintro (h1 | rfl)
      · exact h1
      · exact h
  · simp [List.mem_append]

/-- Membership after folding `setAdd` over an offset range. -/
theorem mem_foldl_setAdd (f : Nat → String) (n : Nat) (s : List String) (k : String) :
    k ∈ (List.range n).foldl (fun acc o => setAdd acc (f o)) s ↔
      k ∈ s ∨ ∃ o, o < n ∧ k = f o := by
  induction n generalizing s with
  | zero => simp
  | succ m ih =>
    rw [List.range_succ, List.foldl_append]
    simp only [List.foldl_cons, List.foldl_nil]
    rw [mem_setAdd, ih]
    constructor
    · rintro ((h | ⟨o, ho, rfl⟩) | rfl)
      · exact .inl h
      · exact .inr ⟨o, by omega, rfl⟩
      · exact .inr ⟨m, by omega, rfl⟩
    · rintro (h | ⟨o, ho, rfl⟩)
      · exact .inl (.inl h)
      · rcases Nat.lt_succ_iff_lt_or_eq.mp ho with h' | rfl
        · exact .inl (.inr ⟨o, h', rfl⟩)
        · exact .inr rfl

/-- C3: the `this_week` allowed date-key set always contains today's
key; every member is the key of an offset of at most `7 - weekday` days
from now (so nothing after the coming Sunday); and when today is
Wednesday it is exactly the keys of the 5 consecutive days from today
(Wednesday through Sunday). -/
theorem thisWeek_window_keys (fdk wds : Int → String) (nowMs : Int) :
    fdk nowMs ∈ allowedDateKeysFor fdk wds nowMs .this_week ∧
    (∀ k ∈ allowedDateKeysFor fdk wds nowMs .this_week,
      ∃ o : Nat, o ≤ 7 - weekdayInTimezone wds nowMs ∧
        k = fdk (nowMs + o * 86400000)) ∧
    (wds nowMs = "Wed" →
      ∀ k, k ∈ allowedDateKeysFor fdk wds nowMs .this_week ↔
        ∃ o : Nat, o < 5 ∧ k = fdk (nowMs + o * 86400000)) := by
  unfold allowedDateKeysFor
  dsimp only
  refine ⟨?_, ?_, ?_⟩
  · rw [mem_foldl_setAdd]
    refine .inr ⟨0, by omega, ?_⟩
    unfold dateKeyForOffset
    norm_num
  · intro k hk
    rw [mem_foldl_setAdd] at hk
    rcases hk with h | ⟨o, ho, hk⟩
    · simp at h
    · exact ⟨o, by omega, hk⟩
  · intro hw k
    have hwd : weekdayInTimezone wds nowMs = 3 := by
      unfold weekdayInTimezone
      rw [hw]
      decide
    rw [hwd, mem_foldl_setAdd]
    simp only [List.not_mem_nil, false_or]
    constructor
    · rintro ⟨o, ho, hk⟩
      exact ⟨o, by omega, hk⟩
    · rintro ⟨o, ho, hk⟩
      exact ⟨o, by omega, hk⟩

/-- Unfolding: the grouping fold over an empty event list. -/
theorem groupEventsFold_nil (parse : String → Option Int) (fdk dlb : Int → String)
    (tk tmk : String) (acc : List EventDaySection) :
    groupEventsFold parse fdk dlb tk tmk acc [] = acc := rfl

/-- Unfolding: one step of the grouping fold. -/
theorem groupEventsFold_cons (parse : String → Option Int) (fdk dlb : Int → String)
    (tk tmk : String) (acc : List EventDaySection) (e : RaycastEvent)
    (rest : List RaycastEvent) :
    groupEventsFold parse fdk dlb tk tmk acc (e :: rest) =
      groupEventsFold parse fdk dlb tk tmk
        (match parse e.startTime with
         | none => acc
         | some t =>
           insertIntoSections acc (fdk t)
             (if fdk t = tk then "Today"
              else if fdk t = tmk then "Tomorrow" else dlb t) e)
        rest := rfl

/-- Every event in a section after an insertion was already in some
section or is the inserted event. -/
theorem mem_events_of_insertIntoSections {secs : List EventDaySection}
    {k ttl : String} {e : RaycastEvent} {s' : EventDaySection} {x : RaycastEvent}
    (hs : s' ∈ insertIntoSections secs k ttl e) (hx : x ∈ s'.events) :
    (∃ s ∈ secs, x ∈ s.events) ∨ x = e := by
  induction secs with
  | nil =>
    rw [insertIntoSections] at hs
    rcases List.mem_singleton.mp hs with rfl
    rcases List.mem_singleton.mp hx with rfl
    exact .inr rfl
  | cons s0 rest ih =>
    rw [insertIntoSections] at hs
    by_cases hid : s0.id = k
    · rw [if_pos hid] at hs
      rcases List.mem_cons.mp hs with rfl | hs
      · rcases List.mem_append.mp hx with hx | hx
        · exact .inl ⟨s0, List.mem_cons_self _ _, hx⟩
        · exact .inr (List.mem_singleton.mp hx)
      · exact .inl ⟨s', List.mem_cons_of_mem _ hs, hx⟩
    · rw [if_neg hid] at hs
      rcases List.mem_cons.mp hs with rfl | hs
      · exact .inl ⟨s', List.mem_cons_self _ _, hx⟩
      · rcases ih hs with ⟨s, hsmem, hxs⟩ | hxe
        · exact .inl ⟨s, List.mem_cons_of_mem _ hsmem, hxs⟩
        · exact .inr hxe

/-- Insertion preserves section well-formedness when the inserted event
is keyed to the insertion key. -/
theorem insertIntoSections_ok {parse : String → Option Int} {fdk : Int → String}
    {secs : List EventDaySection} {k ttl : String} {e : RaycastEvent}
    (hsecs : ∀ s ∈ secs, SectionOk parse fdk s)
    (he : ∃ t, parse e.startTime = some t ∧ fdk t = k) :
    ∀ s ∈ insertIntoSections secs k ttl e, SectionOk parse fdk s := by
  induction secs with
  | nil =>
    intro s hs
    rw [insertIntoSections] at hs
    rcases List.mem_singleton.mp hs with rfl
    refine ⟨by simp, ?_⟩
    intro x hx
    rcases List.mem_singleton.mp hx with rfl
    exact he
  | cons s0 rest ih =>
    intro s hs
    rw [insertIntoSections] at hs
    by_cases hid : s0.id = k
    · rw [if_pos hid] at hs
      rcases List.mem_cons.mp hs with rfl | hs
      · refine ⟨by simp, ?_⟩
        intro x hx
        rcases List.mem_append.mp hx with hx | hx
        · exact (hsecs s0 (List.mem_cons_self _ _)).2 x hx
        · rcases List.mem_singleton.mp hx with rfl
          obtain ⟨t, ht, hkey⟩ := he
          exact ⟨t, ht, by rw [hkey, ← hid]⟩
      · exact hsecs s (List.mem_cons_of_mem _ hs)
    · rw [if_neg hid] at hs
      rcases List.mem_cons.mp hs with rfl | hs
      · exact hsecs s (List.mem_cons_self _ _)
      · exact ih (fun s' hs' => hsecs s' (List.mem_cons_of_mem _ hs')) s hs

/-- The grouping fold preserves section well-formedness. -/
theorem groupEventsFold_ok {parse : String → Option Int} {fdk dlb : Int → String}
    {tk tmk : String} (events : List RaycastEvent) :
    ∀ acc : List EventDaySection, (∀ s ∈ acc, SectionOk parse fdk s) →
      ∀ s ∈ groupEventsFold parse fdk dlb tk tmk acc events, SectionOk parse fdk s := by
  induction events with
  | nil =>
    intro acc hacc
    rw [groupEventsFold_nil]
    exact hacc
  | cons e rest ih =>
    intro acc hacc
    rw [groupEventsFold_cons]
    cases hp : parse e.startTime with
    | none => exact ih acc hacc
    | some t => exact ih _ (insertIntoSections_ok hacc ⟨t, hp, rfl⟩)

/-- Every well-formed output of `groupEventsByDay` only holds events with
parseable starts (the key fact for C5 and C9). -/
theorem groupEventsByDay_ok (parse : String → Option Int) (fdk dlb : Int → String)
    (nowMs : Int) (events : List RaycastEvent) :
    ∀ s ∈ groupEventsByDay parse fdk dlb nowMs events, SectionOk parse fdk s := by
  unfold groupEventsByDay
  exact groupEventsFold_ok _ [] (by simp)

/-- Membership in `keepUpcomingEvents` forces a parseable start. -/
theorem keepUpcomingEvents_parses {parse : String → Option Int} {nowMs : Int}
    {events : List RaycastEvent} {e : RaycastEvent}
    (h : e ∈ keepUpcomingEvents parse nowMs events) :
    (getEventWindowMs parse e).isSome := by
  unfold keepUpcomingEvents at h
  have := (List.mem_filter.mp h).2
  cases hw : getEventWindowMs parse e with
  | none => rw [hw] at this; simp at this
  | some w => rfl

/-- C5: an event whose `startTime` does not parse is excluded from
`filterEventsByTimeWindow` under every window and never appears in any
section produced by `groupEventsByDay`. -/
theorem unparseable_event_excluded (parse : String → Option Int)
    (fdk wds dlb : Int → String) (nowMs : Int) (events : List RaycastEvent)
    (e : RaycastEvent) (h : parse e.startTime = none) :
    (∀ w : TimeWindow,
      e ∉ filterEventsByTimeWindow parse fdk wds nowMs events w) ∧
    (∀ s ∈ groupEventsByDay parse fdk dlb nowMs events, e ∉ s.events) := by
  have hwin : getEventWindowMs parse e = none := by
    unfold getEventWindowMs
    rw [h]
  constructor
  · intro w hmem
    cases w with
    | now =>
      have := (List.mem_filter.mp hmem).2
      unfold isEventLiveNow at this
      rw [hwin] at this
      simp at this
    | all_upcoming =>
      have := keepUpcomingEvents_parses hmem
      rw [hwin] at this
      simp at this
    | today | today_tomorrow | next_3_days | next_7_days | this_week =>
      have := keepUpcomingEvents_parses (List.mem_filter.mp hmem).1
      rw [hwin] at this
      simp at this
  · intro s hs hmem
    obtain ⟨t, ht, _⟩ := (groupEventsByDay_ok parse fdk dlb nowMs events s hs).2 e hmem
    rw [h] at ht
    exact Option.noConfusion ht

/-- Witness for C5: a concrete unparseable event is excluded everywhere. -/
theorem unparseable_event_excluded_witness :
    (fun _ : String => (none : Option Int)) "bad" = none ∧
      ((∀ w : TimeWindow,
        (⟨"e1", "T", "bad", none, "V", "", [], ""⟩ : RaycastEvent) ∉
          filterEventsByTimeWindow (fun _ => none) (fun _ => "d") (fun _ => "Mon") 0
            [⟨"e1", "T", "bad", none, "V", "", [], ""⟩] w) ∧
      (∀ s ∈ groupEventsByDay (fun _ => none) (fun _ => "d") (fun _ => "L") 0
          [⟨"e1", "T", "bad", none, "V", "", [], ""⟩],
        (⟨"e1", "T", "bad", none, "V", "", [], ""⟩ : RaycastEvent) ∉ s.events)) :=
  ⟨rfl, unparseable_event_excluded (fun _ => none) (fun _ => "d") (fun _ => "Mon")
    (fun _ => "L") 0 [⟨"e1", "T", "bad", none, "V", "", [], ""⟩] _ rfl⟩

/-- Insertion appends exactly the inserted event to the multiset of all
grouped events. -/
theorem flatMap_insertIntoSections (secs : List EventDaySection) (k ttl : String)
    (e : RaycastEvent) :
    ((insertIntoSections secs k ttl e).flatMap (·.events)).Perm
      (secs.flatMap (·.events) ++ [e]) := by
  induction secs with
  | nil => simp [insertIntoSections]
  | cons s0 rest ih =>
    rw [insertIntoSections]
    by_cases hid : s0.id = k
    · rw [if_pos hid]
      simp only [List.flatMap_cons]
      rw [List.append_assoc s0.events [e], List.append_assoc s0.events]
      exact List.Perm.append_left s0.events List.perm_append_comm
    · rw [if_neg hid]
      simp only [List.flatMap_cons]
      rw [List.append_assoc]
      exact List.Perm.append_left _ ih

/-- The grouping fold appends exactly the parseable events, as a
multiset, to the events already grouped. -/
theorem flatMap_groupEventsFold (parse : String → Option Int) (fdk dlb : Int → String)
    (tk tmk : String) (events : List RaycastEvent) :
    ∀ acc : List EventDaySection,
      ((groupEventsFold parse fdk dlb tk tmk acc events).flatMap (·.events)).Perm
        (acc.flatMap (·.events) ++
          events.filter (fun e => (parse e.startTime).isSome)) := by
  induction events with
  | nil =>
    intro acc
    rw [groupEventsFold_nil]
    simp
  | cons e rest ih =>
    intro acc
    rw [groupEventsFold_cons]
    cases hp : parse e.startTime with
    | none =>
      have hfc : (e :: rest).filter (fun x => (parse x.startTime).isSome) =
          rest.filter (fun x => (parse x.startTime).isSome) := by
        rw [List.filter_cons]
        simp [hp]
      rw [hfc]
      exact ih acc
    | some t =>
      have hfc : (e :: rest).filter (fun x => (parse x.startTime).isSome) =
          e :: rest.filter (fun x => (parse x.startTime).isSome) := by
        rw [List.filter_cons]
        simp [hp]
      rw [hfc]
      have h1 := ih (insertIntoSections acc (fdk t)
        (if fdk t = tk then "Today" else if fdk t = tmk then "Tomorrow" else dlb t) e)
      refine h1.trans ?_
      have h2 := flatMap_insertIntoSections acc (fdk t)
        (if fdk t = tk then "Today" else if fdk t = tmk then "Tomorrow" else dlb t) e
      refine (h2.append_right _).trans ?_
      rw [List.append_assoc]
      exact List.Perm.refl _

/-- Inserting under an existing key leaves the section ids unchanged. -/
theorem map_id_insertIntoSections_mem {secs : List EventDaySection}
    {k : String} (ttl : String) (e : RaycastEvent)
    (h : k ∈ secs.map (·.id)) :
    (insertIntoSections secs k ttl e).map (·.id) = secs.map (·.id) := by
  induction secs with
  | nil => simp at h
  | cons s0 rest ih =>
    rw [insertIntoSections]
    by_cases hid : s0.id = k
    · rw [if_pos hid]
      simp
    · rw [if_neg hid]
      simp only [List.map_cons]
      rw [List.map_cons] at h
      rcases List.mem_cons.mp h with h' | h'
      · exact absurd h'.symm hid
      · rw [ih h']

/-- Inserting under a new key appends that key to the section ids. -/
theorem map_id_insertIntoSections_not_mem {secs : List EventDaySection}
    {k : String} (ttl : String) (e : RaycastEvent)
    (h : k ∉ secs.map (·.id)) :
    (insertIntoSections secs k ttl e).map (·.id) = secs.map (·.id) ++ [k] := by
  induction secs with
  | nil => simp [insertIntoSections]
  | cons s0 rest ih =>
    rw [insertIntoSections]
    by_cases hid : s0.id = k
    · exact absurd (by simp [hid]) h
    · rw [if_neg hid]
      simp only [List.map_cons, List.cons_append]
      rw [ih (fun hmem => h (by simp [hmem]))]

/-- The grouping fold keeps the section ids duplicate-free. -/
theorem nodup_map_id_groupEventsFold (parse : String → Option Int)
    (fdk dlb : Int → String) (tk tmk : String) (events : List RaycastEvent) :
    ∀ acc : List EventDaySection, (acc.map (·.id)).Nodup →
      ((groupEventsFold parse fdk dlb tk tmk acc events).map (·.id)).Nodup := by
  induction events with
  | nil =>
    intro acc hacc
    rw [groupEventsFold_nil]
    exact hacc
  | cons e rest ih =>
    intro acc hacc
    rw [groupEventsFold_cons]
    cases hp : parse e.startTime with
    | none => exact ih acc hacc
    | some t =>
      refine ih _ ?_
      by_cases hk : fdk t ∈ acc.map (·.id)
      · rw [map_id_insertIntoSections_mem _ _ hk]
        exact hacc
      · rw [map_id_insertIntoSections_not_mem _ _ hk]
        rw [List.nodup_append]
        exact ⟨hacc, List.nodup_singleton _, by
          intro x hx hx'
          rcases List.mem_singleton.mp hx' with rfl
          exact hk hx⟩

/-- C9: `groupEventsByDay` partitions the parseable events: occurrence
counts are preserved across the union of the sections, every section is
non-empty, each section's id is the date-key of every event it holds,
and section ids are pairwise distinct (so each event lands in exactly
one section). -/
theorem groupEventsByDay_partition (parse : String → Option Int)
    (fdk dlb : Int → String) (nowMs : Int) (events : List RaycastEvent) :
    (∀ e : RaycastEvent, (parse e.startTime).isSome →
      ((groupEventsByDay parse fdk dlb nowMs events).flatMap (·.events)).count e =
        events.count e) ∧
    (∀ s ∈ groupEventsByDay parse fdk dlb nowMs events, s.events ≠ []) ∧
    (∀ s ∈ groupEventsByDay parse fdk dlb nowMs events, ∀ e ∈ s.events,
      ∃ t, parse e.startTime = some t ∧ fdk t = s.id) ∧
    ((groupEventsByDay parse fdk dlb nowMs events).map (·.id)).Nodup := by
  refine ⟨?_, ?_, ?_, ?_⟩
  · intro e he
    have hperm : ((groupEventsByDay parse fdk dlb nowMs events).flatMap (·.events)).Perm
        ((sortEvents parse events).filter (fun x => (parse x.startTime).isSome)) := by
      unfold groupEventsByDay
      simpa using flatMap_groupEventsFold parse fdk dlb _ _ (sortEvents parse events) []
    rw [hperm.count_eq]
    rw [List.count_filter (by simpa using he)]
    exact (List.perm_insertionSort _ events).count_eq e
  · intro s hs
    exact (groupEventsByDay_ok parse fdk dlb nowMs events s hs).1
  · intro s hs
    exact (groupEventsByDay_ok parse fdk dlb nowMs events s hs).2
  · unfold groupEventsByDay
    exact nodup_map_id_groupEventsFold parse fdk dlb _ _ (sortEvents parse events) []
      (by simp)

/-- The sort comparator is transitive. -/
theorem eventLe_trans (parse : String → Option Int) (a b c : RaycastEvent)
    (hab : eventLe parse a b = true) (hbc : eventLe parse b c = true) :
    eventLe parse a c = true := by
  unfold eventLe at *
  revert hab hbc
  cases parse a.startTime <;> cases parse b.startTime <;> cases parse c.startTime <;>
    simp [decide_eq_true_eq] <;> omega

/-- The sort comparator is total. -/
theorem eventLe_total (parse : String → Option Int) (a b : RaycastEvent) :
    eventLe parse a b = true ∨ eventLe parse b a = true := by
  unfold eventLe
  cases parse a.startTime <;> cases parse b.startTime <;>
    simp [decide_eq_true_eq] <;> omega

/-- `sortEvents` output is pairwise ordered by the comparator. -/
theorem sortEvents_pairwise (parse : String → Option Int) (events : List RaycastEvent) :
    (sortEvents parse events).Pairwise (fun a b => eventLe parse a b = true) := by
  unfold sortEvents
  haveI : IsTrans RaycastEvent (fun a b => eventLe parse a b = true) :=
    ⟨eventLe_trans parse⟩
  haveI : IsTotal RaycastEvent (fun a b => eventLe parse a b = true) :=
    ⟨eventLe_total parse⟩
  exact List.sorted_insertionSort _ _

/-- Insertion preserves pairwise order of section events when the
inserted event is above everything already grouped. -/
theorem pairwise_events_insertIntoSections
    {R : RaycastEvent → RaycastEvent → Prop} {secs : List EventDaySection}
    {k ttl : String} {e : RaycastEvent}
    (h1 : ∀ s ∈ secs, s.events.Pairwise R)
    (h2 : ∀ s ∈ secs, ∀ x ∈ s.events, R x e) :
    ∀ s ∈ insertIntoSections secs k ttl e, s.events.Pairwise R := by
  induction secs with
  | nil =>
    intro s hs
    rw [insertIntoSections] at hs
    rcases List.mem_singleton.mp hs with rfl
    simp
  | cons s0 rest ih =>
    intro s hs
    rw [insertIntoSections] at hs
    by_cases hid : s0.id = k
    · rw [if_pos hid] at hs
      rcases List.mem_cons.mp hs with rfl | hs
      · rw [List.pairwise_append]
        refine ⟨h1 s0 (List.mem_cons_self _ _), by simp, ?_⟩
        intro x hx y hy
        rcases List.mem_singleton.mp hy with rfl
        exact h2 s0 (List.mem_cons_self _ _) x hx
      · exact h1 s (List.mem_cons_of_mem _ hs)
    · rw [if_neg hid] at hs
      rcases List.mem_cons.mp hs with rfl | hs
      · exact h1 s (List.mem_cons_self _ _)
      · exact ih (fun s' hs' => h1 s' (List.mem_cons_of_mem _ hs'))
          (fun s' hs' => h2 s' (List.mem_cons_of_mem _ hs')) s hs

/-- The grouping fold keeps every section's events pairwise ordered,
given that grouped events sit below the pending ones and the pending
list is pairwise ordered. -/
theorem pairwise_events_groupEventsFold {R : RaycastEvent → RaycastEvent → Prop}
    (parse : String → Option Int) (fdk dlb : Int → String) (tk tmk : String)
    (events : List RaycastEvent) :
    ∀ acc : List EventDaySection,
      (∀ s ∈ acc, s.events.Pairwise R) →
      (∀ s ∈ acc, ∀ x ∈ s.events, ∀ y ∈ events, R x y) →
      events.Pairwise R →
      ∀ s ∈ groupEventsFold parse fdk dlb tk tmk acc events, s.events.Pairwise R := by
  induction events with
  | nil =>
    intro acc h1 _ _
    rw [groupEventsFold_nil]
    exact h1
  | cons e rest ih =>
    intro acc h1 h2 hl
    rw [groupEventsFold_cons]
    have hl' := List.pairwise_cons.mp hl
    cases hp : parse e.startTime with
    | none =>
      exact ih acc h1
        (fun s hs x hx y hy => h2 s hs x hx y (List.mem_cons_of_mem _ hy)) hl'.2
    | some t =>
      refine ih _ ?_ ?_ hl'.2
      · exact pairwise_events_insertIntoSections h1
          (fun s hs x hx => h2 s hs x hx e (List.mem_cons_self _ _))
      · intro s hs x hx y hy
        rcases mem_events_of_insertIntoSections hs hx with ⟨s', hs', hxs⟩ | rfl
        · exact h2 s' hs' x hxs y (List.mem_cons_of_mem _ hy)
        · exact hl'.1 y hy

/-- The grouping fold keeps section ids non-decreasing, given a monotone
date-key oracle, ids below all pending keys, and pending events pairwise
ordered by the comparator. -/
theorem chain_id_groupEventsFold (parse : String → Option Int)
    (fdk dlb : Int → String) (tk tmk : String)
    (hmono : ∀ t1 t2 : Int, t1 ≤ t2 → fdk t1 ≤ fdk t2)
    (events : List RaycastEvent) :
    ∀ acc : List EventDaySection,
      List.Chain' (· ≤ ·) (acc.map (·.id)) →
      (∀ i ∈ acc.map (·.id), ∀ y ∈ events, ∀ ty,
        parse y.startTime = some ty → i ≤ fdk ty) →
      events.Pairwise (fun a b => eventLe parse a b = true) →
      List.Chain' (· ≤ ·)
        ((groupEventsFold parse fdk dlb tk tmk acc events).map (·.id)) := by
  induction events with
  | nil =>
    intro acc h1 _ _
    rw [groupEventsFold_nil]
    exact h1
  | cons e rest ih =>
    intro acc h1 h2 hl
    rw [groupEventsFold_cons]
    have hl' := List.pairwise_cons.mp hl
    cases hp : parse e.startTime with
    | none =>
      exact ih acc h1
        (fun i hi y hy ty hty => h2 i hi y (List.mem_cons_of_mem _ hy) ty hty) hl'.2
    | some t =>
      have hrest : ∀ y ∈ rest, ∀ ty, parse y.startTime = some ty → fdk t ≤ fdk ty := by
        intro y hy ty hty
        have hle := hl'.1 y hy
        unfold eventLe at hle
        rw [hp, hty] at hle
        exact hmono t ty (by simpa using hle)
      by_cases hk : fdk t ∈ acc.map (·.id)
      · refine ih _ ?_ ?_ hl'.2
        · rw [map_id_insertIntoSections_mem _ _ hk]
          exact h1
        · rw [map_id_insertIntoSections_mem _ _ hk]
          intro i hi y hy ty hty
          exact h2 i hi y (List.mem_cons_of_mem _ hy) ty hty
      · refine ih _ ?_ ?_ hl'.2
        · rw [map_id_insertIntoSections_not_mem _ _ hk]
          rw [List.chain'_append]
          refine ⟨h1, by simp, ?_⟩
          intro x hx y hy
          rcases List.mem_singleton.mp (by simpa using hy) with rfl
          exact h2 x (List.mem_of_mem_getLast? hx) e (List.mem_cons_self _ _) t hp
        · rw [map_id_insertIntoSections_not_mem _ _ hk]
          intro i hi y hy ty hty
          rcases List.mem_append.mp hi with hi | hi
          · exact h2 i hi y (List.mem_cons_of_mem _ hy) ty hty
          · rcases List.mem_singleton.mp hi with rfl
            exact hrest y hy ty hty

/-- C8: under a monotone date-key oracle, `groupEventsByDay` returns
sections whose ids are non-decreasing in output order, and within each
section the events are ordered by ascending parsed start instant. -/
theorem groupEventsByDay_sorted (parse : String → Option Int)
    (fdk dlb : Int → String) (nowMs : Int) (events : List RaycastEvent)
    (hmono : ∀ t1 t2 : Int, t1 ≤ t2 → fdk t1 ≤ fdk t2) :
    List.Chain' (· ≤ ·) ((groupEventsByDay parse fdk dlb nowMs events).map (·.id)) ∧
    ∀ s ∈ groupEventsByDay parse fdk dlb nowMs events,
      List.Pairwise
        (fun a b => ∀ ta tb, parse a.startTime = some ta →
          parse b.startTime = some tb → ta ≤ tb) s.events := by
  constructor
  · unfold groupEventsByDay
    exact chain_id_groupEventsFold parse fdk dlb _ _ hmono (sortEvents parse events)
      [] (by simp) (by simp) (sortEvents_pairwise parse events)
  · intro s hs
    have hpw : s.events.Pairwise (fun a b => eventLe parse a b = true) := by
      revert hs
      unfold groupEventsByDay
      exact pairwise_events_groupEventsFold parse fdk dlb _ _ (sortEvents parse events)
        [] (by simp) (by simp) (sortEvents_pairwise parse events) s
    refine hpw.imp ?_
    intro a b hab ta tb ha hb
    unfold eventLe at hab
    rw [ha, hb] at hab
    simpa using hab

/-- Witness for C8 with a constant (hence monotone) date-key oracle and
two concrete events. -/
theorem groupEventsByDay_sorted_witness :
    (∀ t1 t2 : Int, t1 ≤ t2 →
      (fun _ : Int => "d") t1 ≤ (fun _ : Int => "d") t2) ∧
    (List.Chain' (· ≤ ·)
      ((groupEventsByDay (fun s => if s = "a" then some 5 else some 3)
        (fun _ => "d") (fun _ => "L") 0
        [⟨"e1", "T", "a", none, "V", "", [], ""⟩,
         ⟨"e2", "U", "b", none, "W", "", [], ""⟩]).map (·.id)) ∧
    ∀ s ∈ groupEventsByDay (fun s => if s = "a" then some 5 else some 3)
        (fun _ => "d") (fun _ => "L") 0
        [⟨"e1", "T", "a", none, "V", "", [], ""⟩,
         ⟨"e2", "U", "b", none, "W", "", [], ""⟩],
      List.Pairwise
        (fun a b => ∀ ta tb : Int,
          (fun s => if s = "a" then some (5 : Int) else some 3) a.startTime = some ta →
          (fun s => if s = "a" then some (5 : Int) else some 3) b.startTime = some tb →
          ta ≤ tb) s.events) := by
  refine ⟨fun _ _ _ => le_refl _, ?_⟩
  exact groupEventsByDay_sorted (fun s => if s = "a" then some 5 else some 3)
    (fun _ => "d") (fun _ => "L") 0
    [⟨"e1", "T", "a", none, "V", "", [], ""⟩,
     ⟨"e2", "U", "b", none, "W", "", [], ""⟩]
    (fun _ _ _ => le_refl _)

/-- Slug characters are fixed by ASCII lowercasing. -/
theorem toLower_eq_self_of_isSlugChar {c : Char} (h : isSlugChar c = true) :
    c.toLower = c := by
  unfold isSlugChar at h
  simp only [Bool.or_eq_true, Bool.and_eq_true, decide_eq_true_eq] at h
  unfold Char.toLower
  rw [if_neg]
  rintro ⟨h1, h2⟩
  rcases h with (⟨ha, hb⟩ | ⟨ha, hb⟩) | rfl
  · have ha' : 97 ≤ c.toNat := Char.le_def.mp ha
    omega
  · have hb' : c.toNat ≤ 57 := Char.le_def.mp hb
    omega
  · revert h1 h2
    decide

/-- Slug characters are not whitespace. -/
theorem jsIsSpace_eq_false_of_isSlugChar {c : Char} (h : isSlugChar c = true) :
    jsIsSpace c = false := by
  by_contra hc
  rw [Bool.not_eq_false] at hc
  unfold jsIsSpace at hc
  simp only [Bool.or_eq_true, decide_eq_true_eq] at hc
  rcases hc with ((((rfl | rfl) | rfl) | rfl) | rfl) | rfl <;>
    exact absurd h (by decide)

/-- `dropWhile` is the identity when nothing satisfies the predicate. -/
theorem dropWhile_eq_self_of_all {p : Char → Bool} {l : List Char}
    (h : ∀ c ∈ l, p c = false) : l.dropWhile p = l := by
  cases l with
  | nil => rfl
  | cons a rest =>
    have := h a (List.mem_cons_self _ _)
    simp [List.dropWhile_cons, this]

/-- Trimming is the identity on whitespace-free character lists. -/
theorem trimChars_eq_self_of_all {l : List Char}
    (h : ∀ c ∈ l, jsIsSpace c = false) : trimChars l = l := by
  unfold trimChars
  rw [dropWhile_eq_self_of_all h,
    dropWhile_eq_self_of_all (fun c hc => h c (List.mem_reverse.mp hc))]
  exact List.reverse_reverse l

/-- The whitespace-run collapse is the identity on whitespace-free
character lists. -/
theorem collapseSpacesAux_eq_self_of_all {l : List Char}
    (h : ∀ c ∈ l, jsIsSpace c = false) :
    ∀ b, collapseSpacesAux b l = l := by
  induction l with
  | nil => intro b; rfl
  | cons a rest ih =>
    intro b
    have ha := h a (List.mem_cons_self _ _)
    unfold collapseSpacesAux
    simp [ha, ih (fun c hc => h c (List.mem_cons_of_mem _ hc)) false]

/-- Characters surviving the hyphen-run collapse come from its input. -/
theorem mem_of_mem_collapseHyphensAux {c : Char} {l : List Char} :
    ∀ {b : Bool}, c ∈ collapseHyphensAux b l → c ∈ l := by
  induction l with
  | nil => intro b h; simp [collapseHyphensAux] at h
  | cons a rest ih =>
    intro b h
    unfold collapseHyphensAux at h
    by_cases ha : a = '-'
    · rw [if_pos ha] at h
      cases b with
      | true =>
        rw [if_pos rfl] at h
        exact List.mem_cons_of_mem _ (ih h)
      | false =>
        rw [if_neg (by simp)] at h
        rcases List.mem_cons.mp h with rfl | h
        · rw [ha]
          exact List.mem_cons_self _ _
        · exact List.mem_cons_of_mem _ (ih h)
    · rw [if_neg ha] at h
      rcases List.mem_cons.mp h with rfl | h
      · exact List.mem_cons_self _ _
      · exact List.mem_cons_of_mem _ (ih h)

/-- After collapsing with `inRun = true`, the output cannot start with a
hyphen. -/
theorem head_collapseHyphensAux_true {l : List Char} :
    ∀ c ∈ (collapseHyphensAux true l).head?, c ≠ '-' := by
  induction l with
  | nil => intro c hc; simp [collapseHyphensAux] at hc
  | cons a rest ih =>
    intro c hc
    unfold collapseHyphensAux at hc
    by_cases ha : a = '-'
    · rw [if_pos ha, if_pos rfl] at hc
      exact ih c hc
    · rw [if_neg ha] at hc
      simp only [List.head?_cons, Option.mem_def, Option.some.injEq] at hc
      rw [← hc]
      exact ha

/-- The hyphen-run collapse never leaves two adjacent hyphens. -/
theorem chain_collapseHyphensAux (l : List Char) :
    ∀ b, List.Chain' (fun a b => ¬(a = '-' ∧ b = '-')) (collapseHyphensAux b l) := by
  induction l with
  | nil => intro b; simp [collapseHyphensAux]
  | cons a rest ih =>
    intro b
    unfold collapseHyphensAux
    by_cases ha : a = '-'
    · rw [if_pos ha]
      cases b with
      | true =>
        rw [if_pos rfl]
        exact ih true
      | false =>
        rw [if_neg (by simp)]
        rw [List.chain'_cons']
        refine ⟨?_, ih true⟩
        intro y hy hcontra
        exact head_collapseHyphensAux_true y hy hcontra.2
    · rw [if_neg ha]
      rw [List.chain'_cons']
      refine ⟨?_, ih false⟩
      intro y hy
      rintro ⟨rfl, _⟩
      exact ha rfl

/-- `inRun` is irrelevant when the input does not start with a hyphen. -/
theorem collapseHyphensAux_true_eq_false {l : List Char}
    (h : ∀ c ∈ l.head?, c ≠ '-') :
    collapseHyphensAux true l = collapseHyphensAux false l := by
  cases l with
  | nil => rfl
  | cons a rest =>
    have ha : a ≠ '-' := h a (by simp)
    unfold collapseHyphensAux
    rw [if_neg ha, if_neg ha]

/-- The hyphen-run collapse is the identity when no two adjacent hyphens
occur. -/
theorem collapseHyphensAux_eq_self_of_chain {l : List Char}
    (h : List.Chain' (fun a b => ¬(a = '-' ∧ b = '-')) l) :
    collapseHyphensAux false l = l := by
  induction l with
  | nil => rfl
  | cons a rest ih =>
    have h' := List.chain'_cons'.mp h
    unfold collapseHyphensAux
    by_cases ha : a = '-'
    · subst ha
      rw [if_pos rfl, if_neg Bool.false_ne_true]
      have hhead : ∀ c ∈ rest.head?, c ≠ '-' :=
        fun c hc hc' => h'.1 c hc ⟨rfl, hc'⟩
      rw [collapseHyphensAux_true_eq_false hhead, ih h'.2]
    · rw [if_neg ha, ih h'.2]

/-- Every character of a sanitized slug is in `[a-z0-9-]`. -/
theorem isSlugChar_of_mem_sanitizeTownSlugChars {l : List Char} {c : Char}
    (h : c ∈ sanitizeTownSlugChars l) : isSlugChar c = true := by
  unfold sanitizeTownSlugChars at h
  exact (List.mem_filter.mp (mem_of_mem_collapseHyphensAux h)).2

/-- Mapping a function that fixes every element is the identity. -/
theorem map_eq_self_of_all {f : Char → Char} {l : List Char}
    (h : ∀ c ∈ l, f c = c) : l.map f = l := by
  induction l with
  | nil => rfl
  | cons a rest ih =>
    rw [List.map_cons, h a (List.mem_cons_self _ _),
      ih (fun c hc => h c (List.mem_cons_of_mem _ hc))]

/-- Sanitizing is the identity on an already-sanitized character list. -/
theorem sanitizeTownSlugChars_idem (l : List Char) :
    sanitizeTownSlugChars (sanitizeTownSlugChars l) = sanitizeTownSlugChars l := by
  have hchar : ∀ c ∈ sanitizeTownSlugChars l, isSlugChar c = true :=
    fun c hc => isSlugChar_of_mem_sanitizeTownSlugChars hc
  have hspace : ∀ c ∈ sanitizeTownSlugChars l, jsIsSpace c = false :=
    fun c hc => jsIsSpace_eq_false_of_isSlugChar (hchar c hc)
  have hchain : List.Chain' (fun a b => ¬(a = '-' ∧ b = '-'))
      (sanitizeTownSlugChars l) := chain_collapseHyphensAux _ false
  conv_lhs => rw [sanitizeTownSlugChars]
  rw [map_eq_self_of_all (fun c hc => toLower_eq_self_of_isSlugChar (hchar c hc))]
  rw [trimChars_eq_self_of_all hspace]
  rw [collapseSpacesAux_eq_self_of_all hspace false]
  rw [List.filter_eq_self.mpr hchar]
  exact collapseHyphensAux_eq_self_of_chain hchain

/-- C10: `sanitizeTownSlug` is idempotent, its output consists only of
characters from `[a-z0-9-]`, and no two adjacent output characters are
both hyphens. -/
theorem sanitizeTownSlug_idempotent_shape (s : String) :
    sanitizeTownSlug (sanitizeTownSlug s) = sanitizeTownSlug s ∧
    (∀ c ∈ (sanitizeTownSlug s).data, isSlugChar c = true) ∧
    List.Chain' (fun a b => ¬(a = '-' ∧ b = '-')) (sanitizeTownSlug s).data := by
  refine ⟨?_, ?_, ?_⟩
  · show String.mk (sanitizeTownSlugChars (sanitizeTownSlugChars s.data)) =
      String.mk (sanitizeTownSlugChars s.data)
    rw [sanitizeTownSlugChars_idem]
  · exact fun c hc => isSlugChar_of_mem_sanitizeTownSlugChars hc
  · exact chain_collapseHyphensAux _ false

/-- Witness for C7 at the argument `"soho"` (with an empty base URL and
failing network, which the argument path never consults). -/
theorem resolveTownContext_argument_short_circuit_witness :
    sanitizeTownSlug ((some "soho").getD "") ≠ "" ∧
      resolveTownContext (fun _ _ _ _ => 0) ⟨some "soho", some "mayfair", ""⟩
          ⟨.networkError, .networkError, .networkError, .networkError, .networkError⟩ =
        .ok ⟨sanitizeTownSlug ((some "soho").getD ""),
             toTownName (sanitizeTownSlug ((some "soho").getD "")), .argument⟩ :=
  ⟨by decide, resolveTownContext_argument_short_circuit _ _ _ (by decide)⟩

end Townspot
